import Mathlib

/-!
Verification of the coverage aggregation engine and resolution search of
`hic_resolution_rs` against its specification.  The Rust sources are embedded
shallowly: `u32` values are natural numbers kept below `2 ^ 32`, saturating
arithmetic is explicit `min`, wrapping sums carry an explicit `% 2 ^ 32`, and
Rust panics are modelled by `Option` results (`none` = panic).
-/

/-- Largest value of a `u32` counter (`u32::MAX`). -/
def U32MAX : Nat := 2 ^ 32 - 1

/-- Saturating 32-bit addition, modelling `u32::saturating_add`. -/
def satAdd (a b : Nat) : Nat := min (a + b) U32MAX

/-- A paired contact record (`utils.rs`, `struct Pair`); `chr1`/`chr2` are the
`u8` chromosome codes and `pos1`/`pos2` the `u32` positions. -/
structure Pair where
  chr1 : Nat
  pos1 : Nat
  chr2 : Nat
  pos2 : Nat
deriving DecidableEq

/-- The coverage store (`coverage.rs`, `struct Coverage`): per-chromosome
vectors of saturating `u32` counters, the base bin width and the chromosome
lengths. -/
structure Coverage where
  bins : List (List Nat)
  bin_width : Nat
  chr_lengths : List Nat
deriving DecidableEq

/-- Constructor `Coverage::from_lengths`: one all-zero row per chromosome of
length `len / bin_width + 1`. -/
def Coverage.from_lengths (bin_width : Nat) (chr_lengths : List Nat) : Coverage :=
  { bins := chr_lengths.map (fun len => List.replicate (len / bin_width + 1) 0)
    bin_width := bin_width
    chr_lengths := chr_lengths }

/-- Value of counter `bins[ci][b]`, reading `0` out of range (in-range reads
agree with the Rust indexing). -/
def binVal (cov : Coverage) (ci b : Nat) : Nat :=
  (cov.bins.getD ci []).getD b 0

/-- Method `Coverage::increment` (`coverage.rs` lines 44-59): saturating
chromosome-index decrement, bounds checks, then a saturating add of 1. -/
def Coverage.increment (cov : Coverage) (chr pos : Nat) : Coverage :=
  let chr_idx := chr - 1
  if chr_idx ≥ cov.bins.length then cov
  else if pos ≥ cov.chr_lengths.getD chr_idx 0 then cov
  else
    let bin_idx := pos / cov.bin_width
    let row := cov.bins.getD chr_idx []
    if bin_idx < row.length then
      { cov with bins := cov.bins.set chr_idx (row.set bin_idx (satAdd (row.getD bin_idx 0) 1)) }
    else cov

/-- Method `Coverage::add_pair`: increment both endpoints of a record. -/
def Coverage.add_pair (cov : Coverage) (p : Pair) : Coverage :=
  (cov.increment p.chr1 p.pos1).increment p.chr2 p.pos2

/-- Well-formedness of a store as produced by `Coverage::from_lengths`:
positive bin width, matching list lengths, rows sized `len / bin_width + 1`,
`u32`-bounded lengths and counters. -/
abbrev Coverage.WF (cov : Coverage) : Prop :=
  0 < cov.bin_width ∧
  cov.bins.length = cov.chr_lengths.length ∧
  (∀ i < cov.bins.length,
    (cov.bins.getD i []).length = cov.chr_lengths.getD i 0 / cov.bin_width + 1) ∧
  (∀ l ∈ cov.chr_lengths, l < 2 ^ 32) ∧
  (∀ r ∈ cov.bins, ∀ v ∈ r, v ≤ U32MAX)

theorem satAdd_le_max (a b : Nat) : satAdd a b ≤ U32MAX := by
  simp [satAdd]

theorem getD_set_same {l : List Nat} {i : Nat} {x : Nat} (h : i < l.length) :
    (l.set i x).getD i 0 = x := by
  simp [List.getD_eq_getElem?_getD, List.getElem?_set_self h]

theorem getD_set_diff {l : List Nat} {i j : Nat} {x : Nat} (h : i ≠ j) :
    (l.set i x).getD j 0 = l.getD j 0 := by
  simp [List.getD_eq_getElem?_getD, List.getElem?_set_ne h]

theorem getD_set_same' {l : List (List Nat)} {i : Nat} {x : List Nat} (h : i < l.length) :
    (l.set i x).getD i [] = x := by
  simp [List.getD_eq_getElem?_getD, List.getElem?_set_self h]

theorem getD_set_diff' {l : List (List Nat)} {i j : Nat} {x : List Nat} (h : i ≠ j) :
    (l.set i x).getD j [] = l.getD j [] := by
  simp [List.getD_eq_getElem?_getD, List.getElem?_set_ne h]

theorem getD_mem_of_lt {l : List (List Nat)} {i : Nat} (h : i < l.length) :
    l.getD i [] ∈ l := by
  rw [List.getD_eq_getElem?_getD, List.getElem?_eq_getElem h]
  exact List.getElem_mem h

/-- Fields other than `bins` are untouched by `increment`. -/
theorem increment_bin_width (cov : Coverage) (chr pos : Nat) :
    (cov.increment chr pos).bin_width = cov.bin_width := by
  simp only [Coverage.increment]
  repeat' split
  all_goals rfl

theorem increment_chr_lengths (cov : Coverage) (chr pos : Nat) :
    (cov.increment chr pos).chr_lengths = cov.chr_lengths := by
  simp only [Coverage.increment]
  repeat' split
  all_goals rfl

theorem increment_bins_length (cov : Coverage) (chr pos : Nat) :
    (cov.increment chr pos).bins.length = cov.bins.length := by
  simp only [Coverage.increment]
  repeat' split
  all_goals simp

theorem increment_row_length (cov : Coverage) (chr pos : Nat) (i : Nat) :
    ((cov.increment chr pos).bins.getD i []).length = (cov.bins.getD i []).length := by
  simp only [Coverage.increment]
  split
  · rfl
  · split
    · rfl
    · split
      · rename_i h1 h2 h3
        by_cases hij : chr - 1 = i
        · subst hij
          rw [getD_set_same' (by omega)]
          simp
        · rw [getD_set_diff' hij]
      · rfl

/-- Effect of `increment` on an individual counter: the target bin gets a
saturating `+1` exactly when the endpoint survives validation, every other
counter is untouched. -/
theorem increment_binVal (cov : Coverage) (chr pos ci b : Nat) (hwf : cov.WF) :
    binVal (cov.increment chr pos) ci b =
      if chr - 1 = ci ∧ ci < cov.bins.length ∧ pos < cov.chr_lengths.getD ci 0 ∧
          pos / cov.bin_width = b
      then satAdd (binVal cov ci b) 1 else binVal cov ci b := by
  obtain ⟨hbw, hlen, hrows, hlu, hvu⟩ := hwf
  simp only [Coverage.increment, ge_iff_le, not_le]
  split
  · rename_i h1
    rw [if_neg]
    rintro ⟨rfl, h2, -, -⟩
    omega
  · rename_i h1
    split
    · rename_i h2
      rw [if_neg]
      rintro ⟨rfl, -, h3, -⟩
      omega
    · rename_i h2
      have hrowlen : (cov.bins.getD (chr - 1) []).length =
          cov.chr_lengths.getD (chr - 1) 0 / cov.bin_width + 1 := hrows _ (by omega)
      have hbin : pos / cov.bin_width < (cov.bins.getD (chr - 1) []).length := by
        rw [hrowlen]
        have : pos / cov.bin_width ≤ cov.chr_lengths.getD (chr - 1) 0 / cov.bin_width :=
          Nat.div_le_div_right (by omega)
        omega
      rw [if_pos hbin]
      by_cases hci : chr - 1 = ci
      · subst hci
        by_cases hb : pos / cov.bin_width = b
        · subst hb
          rw [if_pos ⟨rfl, by omega, by omega, rfl⟩]
          simp only [binVal]
          rw [getD_set_same' (by omega), getD_set_same hbin]
        · rw [if_neg (by rintro ⟨-, -, -, h⟩; exact hb h)]
          simp only [binVal]
          rw [getD_set_same' (by omega), getD_set_diff hb]
      · rw [if_neg (by rintro ⟨h, -, -, -⟩; exact hci h)]
        simp only [binVal]
        rw [getD_set_diff' hci]

/-- The well-formedness invariant is preserved by `increment`. -/
theorem increment_WF (cov : Coverage) (chr pos : Nat) (hwf : cov.WF) :
    (cov.increment chr pos).WF := by
  obtain ⟨hbw, hlen, hrows, hlu, hvu⟩ := hwf
  refine ⟨?_, ?_, ?_, ?_, ?_⟩
  · rw [increment_bin_width]; exact hbw
  · rw [increment_bins_length, increment_chr_lengths]; exact hlen
  · intro i hi
    rw [increment_bins_length] at hi
    rw [increment_row_length, increment_bin_width, increment_chr_lengths]
    exact hrows i hi
  · rw [increment_chr_lengths]; exact hlu
  · intro r hr v hv
    simp only [Coverage.increment] at hr
    split at hr
    · exact hvu r hr v hv
    · split at hr
      · exact hvu r hr v hv
      · split at hr
        · simp only at hr
          rcases List.mem_or_eq_of_mem_set hr with h | h
          · exact hvu r h v hv
          · subst h
            rcases List.mem_or_eq_of_mem_set hv with h | h
            · exact hvu _ (getD_mem_of_lt (by omega)) v h
            · subst h; exact satAdd_le_max _ _
        · exact hvu r hr v hv

/-- C1 counterexample store: one chromosome of length 100, bin width 10. -/
def covC1 : Coverage := Coverage.from_lengths 10 [100]

/-- C1: the claim is false as stated.  Chromosome code `0` is outside
`[1, num_chromosomes]`, yet `increment(0, 20)` is not a no-op: the saturating
subtraction maps code 0 to chromosome 1 and bin `20 / 10 = 2` changes. -/
theorem c1_counterexample :
    binVal (covC1.increment 0 20) 0 2 ≠ binVal covC1 0 2 := by decide

/-- C1 (amended): `increment (chr, pos)` on a well-formed store is a no-op
whenever `chr > num_chromosomes`, or `chr ≥ 1` and `pos ≥ length[chr]`; the
chromosome code `0` is excluded because the saturating subtraction aliases it
to chromosome 1. -/
theorem c1_increment_out_of_range_noop (cov : Coverage) (chr pos : Nat) (hwf : cov.WF)
    (h : cov.bins.length < chr ∨
      (1 ≤ chr ∧ cov.chr_lengths.getD (chr - 1) 0 ≤ pos)) :
    cov.increment chr pos = cov := by
  unfold Coverage.increment
  rcases h with h | ⟨h1, h2⟩
  · rw [if_pos (by omega)]
  · by_cases hrange : chr - 1 ≥ cov.bins.length
    · rw [if_pos hrange]
    · rw [if_neg hrange, if_pos (by omega)]

/-- C1 witness: on the concrete store, `increment 3 0` (chromosome above the
range) and `increment 1 100` (position at the length) both leave the store
unchanged. -/
theorem c1_witness :
    covC1.increment 3 0 = covC1 ∧ covC1.increment 1 100 = covC1 :=
  ⟨c1_increment_out_of_range_noop covC1 3 0 (by decide) (by decide),
   c1_increment_out_of_range_noop covC1 1 100 (by decide) (by decide)⟩

/-- C7 counterexample store: a single counter already at `u32::MAX`. -/
def covC7 : Coverage :=
  { bins := [[4294967295]], bin_width := 10, chr_lengths := [5] }

/-- C7: the claim is false as stated.  For the valid endpoint `(1, 0)` whose
counter already holds `u32::MAX`, a single `increment` does not increase it by
1: saturation leaves it unchanged. -/
theorem c7_counterexample :
    binVal (covC7.increment 1 0) 0 0 ≠ binVal covC7 0 0 + 1 := by decide

/-- C7 (amended): for a valid endpoint whose target counter is strictly below
`u32::MAX`, a single `increment` raises exactly the counter
`bins[chr-1][pos / bin_width]` by exactly 1 and leaves every other counter
unchanged; at `u32::MAX` the counter saturates instead. -/
theorem c7_point_locality (cov : Coverage) (chr pos : Nat) (hwf : cov.WF)
    (h1 : 1 ≤ chr) (h2 : chr ≤ cov.bins.length)
    (h3 : pos < cov.chr_lengths.getD (chr - 1) 0)
    (h4 : binVal cov (chr - 1) (pos / cov.bin_width) < U32MAX) :
    binVal (cov.increment chr pos) (chr - 1) (pos / cov.bin_width)
        = binVal cov (chr - 1) (pos / cov.bin_width) + 1 ∧
    ∀ ci b, ¬(ci = chr - 1 ∧ b = pos / cov.bin_width) →
      binVal (cov.increment chr pos) ci b = binVal cov ci b := by
  constructor
  · rw [increment_binVal cov chr pos _ _ hwf,
      if_pos ⟨rfl, by omega, h3, rfl⟩]
    simp only [satAdd]
    omega
  · intro ci b hne
    rw [increment_binVal cov chr pos _ _ hwf, if_neg]
    rintro ⟨hci, -, -, hb⟩
    exact hne ⟨hci.symm, hb.symm⟩

/-- C7 witness: on the fresh C1 store the valid endpoint `(1, 25)` bumps bin
`(0, 2)` from 0 to 1 and leaves bin `(0, 0)` alone. -/
theorem c7_witness :
    binVal (covC1.increment 1 25) 0 2 = binVal covC1 0 2 + 1 ∧
    binVal (covC1.increment 1 25) 0 0 = binVal covC1 0 0 :=
  ⟨(c7_point_locality covC1 1 25 (by decide) (by decide) (by decide) (by decide) (by decide)).1,
   (c7_point_locality covC1 1 25 (by decide) (by decide) (by decide) (by decide)
      (by decide)).2 0 0 (by decide)⟩

/-- An ingestion operation on the store: a single endpoint increment or a
whole pair (`Coverage::increment` / `Coverage::add_pair`). -/
inductive CovOp where
  | inc (chr pos : Nat)
  | pairAdd (p : Pair)
deriving DecidableEq

/-- Apply one ingestion operation. -/
def applyOp (cov : Coverage) (op : CovOp) : Coverage :=
  match op with
  | .inc chr pos => cov.increment chr pos
  | .pairAdd p => cov.add_pair p

theorem getD_mem_nat {l : List Nat} {i : Nat} (h : i < l.length) : l.getD i 0 ∈ l := by
  rw [List.getD_eq_getElem?_getD, List.getElem?_eq_getElem h]
  exact List.getElem_mem h

theorem getD_eq_zero_of_le {l : List Nat} {i : Nat} (h : l.length ≤ i) : l.getD i 0 = 0 := by
  rw [List.getD_eq_getElem?_getD, List.getElem?_eq_none h]
  rfl

theorem getD_eq_nil_of_le {l : List (List Nat)} {i : Nat} (h : l.length ≤ i) :
    l.getD i [] = [] := by
  rw [List.getD_eq_getElem?_getD, List.getElem?_eq_none h]
  rfl

/-- Every counter of a well-formed store is `u32`-bounded. -/
theorem binVal_le_max (cov : Coverage) (ci b : Nat) (hwf : cov.WF) :
    binVal cov ci b ≤ U32MAX := by
  obtain ⟨-, -, -, -, hvu⟩ := hwf
  unfold binVal
  by_cases hci : ci < cov.bins.length
  · by_cases hb : b < (cov.bins.getD ci []).length
    · exact hvu _ (getD_mem_of_lt hci) _ (getD_mem_nat hb)
    · rw [getD_eq_zero_of_le (by omega)]
      exact Nat.zero_le _
  · rw [getD_eq_nil_of_le (by omega)]
    exact Nat.zero_le _

theorem increment_binVal_mono (cov : Coverage) (chr pos ci b : Nat) (hwf : cov.WF) :
    binVal cov ci b ≤ binVal (cov.increment chr pos) ci b := by
  rw [increment_binVal cov chr pos ci b hwf]
  split
  · exact le_min (Nat.le_succ _) (binVal_le_max cov ci b hwf)
  · exact le_rfl

theorem add_pair_WF (cov : Coverage) (p : Pair) (hwf : cov.WF) : (cov.add_pair p).WF :=
  increment_WF _ _ _ (increment_WF _ _ _ hwf)

theorem applyOp_WF (cov : Coverage) (op : CovOp) (hwf : cov.WF) : (applyOp cov op).WF := by
  cases op with
  | inc chr pos => exact increment_WF _ _ _ hwf
  | pairAdd p => exact add_pair_WF _ _ hwf

theorem applyOp_binVal_mono (cov : Coverage) (op : CovOp) (ci b : Nat) (hwf : cov.WF) :
    binVal cov ci b ≤ binVal (applyOp cov op) ci b := by
  cases op with
  | inc chr pos => exact increment_binVal_mono _ _ _ _ _ hwf
  | pairAdd p =>
    exact le_trans (increment_binVal_mono _ _ _ _ _ hwf)
      (increment_binVal_mono _ _ _ _ _ (increment_WF _ _ _ hwf))

theorem foldl_applyOp_WF (ops : List CovOp) (cov : Coverage) (hwf : cov.WF) :
    (ops.foldl applyOp cov).WF := by
  induction ops generalizing cov with
  | nil => exact hwf
  | cons op ops ih => exact ih _ (applyOp_WF _ _ hwf)

theorem foldl_applyOp_mono (ops : List CovOp) (cov : Coverage) (ci b : Nat) (hwf : cov.WF) :
    binVal cov ci b ≤ binVal (ops.foldl applyOp cov) ci b := by
  induction ops generalizing cov with
  | nil => exact le_rfl
  | cons op ops ih =>
    exact le_trans (applyOp_binVal_mono _ _ _ _ hwf) (ih _ (applyOp_WF _ _ hwf))

/-- C5: counters saturate and never wrap.  On a well-formed store every
counter is monotonically non-decreasing under any sequence of
`increment`/`add_pair` operations, and a counter already at `u32::MAX` stays
pinned there (never reset, never a panic since every operation is total). -/
theorem c5_saturation_monotone (cov : Coverage) (ops : List CovOp) (ci b : Nat)
    (hwf : cov.WF) :
    binVal cov ci b ≤ binVal (ops.foldl applyOp cov) ci b ∧
    (binVal cov ci b = U32MAX → binVal (ops.foldl applyOp cov) ci b = U32MAX) := by
  refine ⟨foldl_applyOp_mono ops cov ci b hwf, fun hmax => ?_⟩
  have h1 := foldl_applyOp_mono ops cov ci b hwf
  have h2 := binVal_le_max (ops.foldl applyOp cov) ci b (foldl_applyOp_WF ops cov hwf)
  omega

/-- C5 witness store: a well-formed single-bin store pinned at `u32::MAX`. -/
def covC5 : Coverage := { bins := [[4294967295]], bin_width := 10, chr_lengths := [5] }

/-- C5 witness: a saturated counter stays at `u32::MAX` across a further
increment and pair insertion. -/
theorem c5_witness :
    binVal covC5 0 0 ≤ binVal ([CovOp.inc 1 0, CovOp.pairAdd ⟨1, 2, 1, 4⟩].foldl applyOp covC5) 0 0 ∧
    (binVal covC5 0 0 = U32MAX →
      binVal ([CovOp.inc 1 0, CovOp.pairAdd ⟨1, 2, 1, 4⟩].foldl applyOp covC5) 0 0 = U32MAX) :=
  c5_saturation_monotone covC5 [CovOp.inc 1 0, CovOp.pairAdd ⟨1, 2, 1, 4⟩] 0 0 (by decide)

/-- Structural-fuel worker for Rust `slice::chunks`: peel `cs` elements per
step.  The fuel `l.length` always suffices since `cs ≥ 1` consumes at least
one element per step. -/
def sliceChunksF : Nat → Nat → List Nat → List (List Nat)
  | 0, _, _ => []
  | _, _, [] => []
  | fuel + 1, cs, l => l.take cs :: sliceChunksF fuel cs (l.drop cs)

/-- Rust `slice::chunks(cs)` for `cs ≥ 1`: consecutive chunks of `cs`
elements, the last possibly shorter.  (`chunks(0)` asserts in Rust; that case
is handled by the caller `count_good_bins`.) -/
def sliceChunks (cs : Nat) (l : List Nat) : List (List Nat) :=
  sliceChunksF l.length cs l

/-- Per-chromosome good-chunk count of the generic path of
`Coverage::count_good_bins`: chunk the row, sum each chunk in wrapping `u32`
arithmetic (`sum::<u32>()`), count sums reaching the threshold. -/
def goodRow (cs threshold : Nat) (row : List Nat) : Nat :=
  ((sliceChunks cs row).map (fun ch => ch.sum % 2 ^ 32)).countP (fun s => decide (threshold ≤ s))

/-- Generic (chunks-based) path of `Coverage::count_good_bins`
(`coverage.rs` lines 95-112). -/
def count_good_bins_generic (cov : Coverage) (bin_size threshold : Nat) : Nat :=
  (cov.bins.map (goodRow (bin_size / cov.bin_width) threshold)).sum

/-- Per-chromosome count of `Coverage::count_good_bins_large`: manual
start/end indexing over `ceil(len / cs)` chunks, wrapping `u32` chunk sums. -/
def goodRowLarge (cs threshold : Nat) (row : List Nat) : Nat :=
  (List.range ((row.length + cs - 1) / cs)).countP
    (fun i => decide (threshold ≤ ((row.drop (i * cs)).take cs).sum % 2 ^ 32))

/-- Method `Coverage::count_good_bins_large` (`coverage.rs` lines 116-141). -/
def Coverage.count_good_bins_large (cov : Coverage) (bin_size threshold : Nat) : Nat :=
  (cov.bins.map (goodRowLarge (bin_size / cov.bin_width) threshold)).sum

/-- Method `Coverage::count_good_bins` (`coverage.rs` lines 87-113).
`none` models a Rust panic: division by a zero `bin_width`, or the
`chunks(0)` assertion when `bins_per_chunk = 0` and at least one chromosome
row is iterated (the assertion fires for any row, even an empty one). -/
def Coverage.count_good_bins (cov : Coverage) (bin_size threshold : Nat) : Option Nat :=
  if cov.bin_width = 0 then none
  else if 1000 ≤ bin_size / cov.bin_width then
    some (cov.count_good_bins_large bin_size threshold)
  else if bin_size / cov.bin_width = 0 ∧ cov.bins ≠ [] then none
  else some (count_good_bins_generic cov bin_size threshold)

/-- Ceiling-division step identity used to align the two chunking schemes. -/
theorem ceil_div_succ (cs n : Nat) (hcs : 0 < cs) (hn : 0 < n) :
    (n + cs - 1) / cs = (n - cs + cs - 1) / cs + 1 := by
  rcases le_or_lt cs n with h | h
  · have : n + cs - 1 = (n - cs + cs - 1) + cs := by omega
    rw [this, Nat.add_div_right _ hcs]
  · have h1 : (n + cs - 1) / cs = 1 := by
      apply Nat.div_eq_of_lt_le <;> omega
    have h2 : n - cs = 0 := by omega
    rw [h1, h2]
    rw [Nat.div_eq_of_lt (by omega)]

/-- The fuelled chunking agrees with the indexed chunk enumeration used by
`count_good_bins_large`. -/
theorem sliceChunksF_eq (cs : Nat) (hcs : 0 < cs) :
    ∀ fuel l, List.length l ≤ fuel →
      sliceChunksF fuel cs l =
        (List.range ((l.length + cs - 1) / cs)).map (fun i => (l.drop (i * cs)).take cs) := by
  intro fuel
  induction fuel with
  | zero =>
    intro l hl
    have : l = [] := List.eq_nil_of_length_eq_zero (by omega)
    subst this
    simp only [sliceChunksF, List.length_nil, Nat.zero_add]
    rw [Nat.div_eq_of_lt (by omega)]
    simp
  | succ fuel ih =>
    intro l hl
    cases l with
    | nil =>
      simp only [sliceChunksF, List.length_nil, Nat.zero_add]
      rw [Nat.div_eq_of_lt (by omega)]
      simp
    | cons x xs =>
      have hlen : 0 < (x :: xs).length := by simp
      rw [ceil_div_succ cs _ hcs hlen]
      rw [List.range_succ_eq_map]
      simp only [sliceChunksF, List.map_cons, List.map_map, Nat.zero_mul, List.drop_zero]
      congr 1
      have hdrop : ((x :: xs).drop cs).length = (x :: xs).length - cs := by
        simp [List.length_drop]
      rw [ih ((x :: xs).drop cs) (by simp at hl ⊢; omega), hdrop]
      apply List.map_congr_left
      intro i hi
      simp only [Function.comp]
      have hsucc : cs + i * cs = i.succ * cs := by
        simp [Nat.succ_mul, Nat.add_comm]
      rw [List.drop_drop, hsucc]

/-- The chunks-based and index-based per-row counts coincide for any
positive chunk size. -/
theorem goodRow_eq_large (cs threshold : Nat) (row : List Nat) (hcs : 0 < cs) :
    goodRow cs threshold row = goodRowLarge cs threshold row := by
  unfold goodRow goodRowLarge sliceChunks
  rw [sliceChunksF_eq cs hcs _ row le_rfl, List.map_map, List.countP_map]
  rfl

/-- The large fast path equals the generic path whenever `bins_per_chunk` is
positive. -/
theorem large_eq_generic (cov : Coverage) (bin_size threshold : Nat)
    (h : 0 < bin_size / cov.bin_width) :
    cov.count_good_bins_large bin_size threshold =
      count_good_bins_generic cov bin_size threshold := by
  unfold Coverage.count_good_bins_large count_good_bins_generic
  congr 1
  apply List.map_congr_left
  intro row _
  exact (goodRow_eq_large _ threshold row h).symm

/-- C9: with a positive `bins_per_chunk`, the manual start/end indexing of
`count_good_bins_large` returns exactly the same count as the generic
chunks-based path, and the dispatch inside `count_good_bins` therefore always
returns the generic count. -/
theorem c9_large_eq_generic (cov : Coverage) (bin_size threshold : Nat)
    (h : 1 ≤ bin_size / cov.bin_width) :
    cov.count_good_bins_large bin_size threshold =
      count_good_bins_generic cov bin_size threshold ∧
    cov.count_good_bins bin_size threshold =
      some (count_good_bins_generic cov bin_size threshold) := by
  have hbw : cov.bin_width ≠ 0 := by
    intro h0
    rw [h0, Nat.div_zero] at h
    omega
  refine ⟨large_eq_generic cov bin_size threshold h, ?_⟩
  unfold Coverage.count_good_bins
  rw [if_neg hbw]
  by_cases hl : 1000 ≤ bin_size / cov.bin_width
  · rw [if_pos hl, large_eq_generic cov bin_size threshold h]
  · rw [if_neg hl, if_neg (by omega)]

/-- C9 witness: a store with three base bins and `bins_per_chunk = 1000`
(so the fast path is the one actually dispatched). -/
def covC9 : Coverage := Coverage.from_lengths 1 [2]

theorem c9_witness :
    covC9.count_good_bins_large 1000 0 = count_good_bins_generic covC9 1000 0 ∧
    covC9.count_good_bins 1000 0 = some (count_good_bins_generic covC9 1000 0) :=
  c9_large_eq_generic covC9 1000 0 (by decide)

/-- Each per-row good count is antitone in the threshold. -/
theorem goodRow_threshold_le (cs t1 t2 : Nat) (row : List Nat) (ht : t1 ≤ t2) :
    goodRow cs t2 row ≤ goodRow cs t1 row := by
  unfold goodRow
  apply List.countP_mono_left
  intro s _ hs
  simp only [decide_eq_true_eq] at hs ⊢
  omega

/-- The generic path is antitone in the threshold. -/
theorem generic_threshold_le (cov : Coverage) (bin_size t1 t2 : Nat) (ht : t1 ≤ t2) :
    count_good_bins_generic cov bin_size t2 ≤ count_good_bins_generic cov bin_size t1 := by
  unfold count_good_bins_generic
  apply List.sum_le_sum
  intro row _
  exact goodRow_threshold_le _ t1 t2 row ht

/-- C8: for an aggregation bin size that is a positive multiple of the base
bin width, `count_good_bins` succeeds at both thresholds and the good-bin
count is monotone non-increasing in the threshold. -/
theorem c8_threshold_monotone (cov : Coverage) (agg t1 t2 : Nat)
    (hagg : 0 < agg) (hdvd : cov.bin_width ∣ agg) (ht : t1 ≤ t2) :
    ∃ n1 n2, cov.count_good_bins agg t1 = some n1 ∧
      cov.count_good_bins agg t2 = some n2 ∧ n2 ≤ n1 := by
  have hbw : cov.bin_width ≠ 0 := by
    intro h0
    rw [h0, Nat.zero_dvd] at hdvd
    omega
  obtain ⟨k, hk⟩ := hdvd
  have hbpc : agg / cov.bin_width = k := by
    rw [hk, Nat.mul_div_cancel_left _ (by omega)]
  have hkpos : 0 < k := by
    rcases Nat.eq_zero_or_pos k with h | h
    · rw [h, Nat.mul_zero] at hk; omega
    · exact h
  have key : ∀ t, cov.count_good_bins agg t = some (count_good_bins_generic cov agg t) := by
    intro t
    unfold Coverage.count_good_bins
    rw [if_neg hbw]
    by_cases hl : 1000 ≤ agg / cov.bin_width
    · rw [if_pos hl, large_eq_generic cov agg t (by rw [hbpc]; omega)]
    · rw [if_neg hl, if_neg (by rw [hbpc]; omega)]
  exact ⟨_, _, key t1, key t2, generic_threshold_le cov agg t1 t2 ht⟩

/-- C8 witness store: base bins `[5, 3, 0, 12]` at bin width 10. -/
def covC8 : Coverage := { bins := [[5, 3, 0, 12]], bin_width := 10, chr_lengths := [39] }

theorem c8_witness :
    ∃ n1 n2, covC8.count_good_bins 20 10 = some n1 ∧
      covC8.count_good_bins 20 13 = some n2 ∧ n2 ≤ n1 :=
  c8_threshold_monotone covC8 20 10 13 (by decide) (by decide) (by decide)

/-- C10: calling `count_good_bins` with an aggregation size below the base
bin width makes `bins_per_chunk = 0`; as soon as one chromosome row exists
the `chunks(0)` assertion fires, i.e. the call panics instead of returning a
count. -/
theorem c10_chunk_size_zero_panics (cov : Coverage) (agg t : Nat)
    (hlt : agg < cov.bin_width) (hrow : ∃ r ∈ cov.bins, r ≠ []) :
    cov.count_good_bins agg t = none := by
  have hbw : cov.bin_width ≠ 0 := by omega
  have hbpc : agg / cov.bin_width = 0 := Nat.div_eq_of_lt hlt
  have hne : cov.bins ≠ [] := by
    obtain ⟨r, hr, -⟩ := hrow
    exact List.ne_nil_of_mem hr
  unfold Coverage.count_good_bins
  rw [if_neg hbw, if_neg (by omega), if_pos ⟨hbpc, hne⟩]

/-- C10 witness store: the fresh C1 store (one row of eleven zero bins). -/
def covC10 : Coverage := Coverage.from_lengths 10 [100]

theorem c10_witness : covC10.count_good_bins 5 0 = none :=
  c10_chunk_size_zero_panics covC10 5 0 (by decide)
    ⟨List.replicate 11 0, by decide, by decide⟩

/-- C3 example store from the spec: base bins `[5, 3, 0, 12]`. -/
def covC3 : Coverage := { bins := [[5, 3, 0, 12]], bin_width := 10, chr_lengths := [39] }

/-- C3 failing store: one chunk holding `[u32::MAX, 1]`, whose mathematical
sum is `2 ^ 32`. -/
def covC3bug : Coverage := { bins := [[4294967295, 1]], bin_width := 10, chr_lengths := [15] }

/-- C3: the spec example evaluates as documented (chunk sums `[8, 12]`,
one of them at least 10), but chunk sums are computed by `sum::<u32>()`,
which wraps modulo `2 ^ 32`: for base bins `[u32::MAX, 1]` the single chunk's
mathematical sum is `2 ^ 32 ≥ 10`, yet the code counts zero good chunks
because the wrapped sum is 0. -/
theorem c3_wrapping_sum_eval :
    covC3.count_good_bins 20 10 = some 1 ∧
    covC3bug.count_good_bins 20 10 = some 0 ∧
    (10 : Nat) ≤ 4294967295 + 1 := by decide

/-- Helper `round_to_bin_multiple` (`resolution.rs` lines 165-167): round up
to a multiple of the bin width.  The `u32` additions wrap modulo `2 ^ 32`
(made explicit by the `%`); for `bin_width = 0` Rust panics on the division,
so every use below carries `0 < bin_width`. -/
def round_to_bin_multiple (value bin_width : Nat) : Nat :=
  (value + bin_width - 1) % 2 ^ 32 / bin_width * bin_width

theorem round_ge (v binw : Nat) (hbw : 0 < binw) (hv : v + binw - 1 < 2 ^ 32) :
    v ≤ round_to_bin_multiple v binw := by
  unfold round_to_bin_multiple
  rw [Nat.mod_eq_of_lt hv, Nat.mul_comm]
  have h1 := Nat.div_add_mod (v + binw - 1) binw
  have h2 := Nat.mod_lt (v + binw - 1) hbw
  omega

theorem round_lt (v binw : Nat) (hbw : 0 < binw) (hv : v + binw - 1 < 2 ^ 32) :
    round_to_bin_multiple v binw < v + binw := by
  unfold round_to_bin_multiple
  rw [Nat.mod_eq_of_lt hv, Nat.mul_comm]
  have h1 := Nat.div_add_mod (v + binw - 1) binw
  have h2 := Nat.mod_lt (v + binw - 1) hbw
  omega

/-- Coarse upper-bound scan of `find_resolution` (`resolution.rs` lines
47-98), parametrized by the predicate `goodAt` standing for
`count_good_bins(high, threshold) ≥ (prop * (genome_size / high as f64)) as u64`
(the `f64` comparison is abstracted as a boolean function of the candidate;
likewise `step` is the possibly sparsity-adjusted step size).  Structural
fuel replaces the unbounded Rust `loop`; `none` marks fuel exhaustion and is
ruled out for positive bin widths below.  Returns `(low, high, found_upper)`
exactly as the loop leaves those variables. -/
def coarse_search (goodAt : Nat → Bool) (bin_width step limit : Nat) :
    Nat → Nat → Nat → Option (Nat × Nat × Bool)
  | 0, _, _ => none
  | fuel + 1, low, high =>
    if goodAt high then some (low, high, true)
    else if limit ≤ high then some (low, round_to_bin_multiple limit bin_width, false)
    else
      let next0 := round_to_bin_multiple (satAdd high step) bin_width
      let next := if next0 = high then satAdd high bin_width else next0
      coarse_search goodAt bin_width step limit fuel high next

/-- Binary-search refinement of `find_resolution` (`resolution.rs` lines
117-159).  `rem` counts the iterations still permitted: the Rust loop breaks
once its counter exceeds 100, i.e. after at most 101 executed iterations, so
the caller passes `rem = 101`; `rem = 0` returns the current `high` exactly
like the safety break. -/
def binary_refine (goodAt : Nat → Bool) (bin_width : Nat) :
    Nat → Nat → Nat → Nat
  | 0, _, high => high
  | rem + 1, low, high =>
    if low + bin_width < high then
      let mid := round_to_bin_multiple (low + (high - low) / 2) bin_width
      if goodAt mid then binary_refine goodAt bin_width rem low mid
      else binary_refine goodAt bin_width rem mid high
    else high

/-- `find_resolution` (`resolution.rs` lines 3-163) over the abstracted
predicate: the ceiling is `min(10_000_000, min(genome_size, u32::MAX))`, the
coarse scan starts at `low = high = bin_width`, and on failure the rounded
ceiling is returned without refinement. -/
def find_resolution (goodAt : Nat → Bool) (genome_size bin_width step : Nat) : Option Nat :=
  let limit := min 10000000 (min genome_size U32MAX)
  match coarse_search goodAt bin_width step limit (limit + 2) bin_width bin_width with
  | none => none
  | some (low, high, found) =>
    if found then some (binary_refine goodAt bin_width 101 low high) else some high

/-- When the predicate never holds, the coarse scan runs to the ceiling and
reports `found_upper = false` with `high` rounded from the ceiling; the fuel
`limit + 2 - high` bookkeeping shows the supplied fuel suffices. -/
theorem coarse_search_all_bad (goodAt : Nat → Bool) (bin_width step limit : Nat)
    (hall : ∀ c, goodAt c = false) (hbw : 0 < bin_width)
    (hlim : limit ≤ 10000000) (hov : step + bin_width + 10000000 ≤ 2 ^ 32) :
    ∀ fuel, 1 ≤ fuel → ∀ low high, limit < high + fuel →
      ∃ l, coarse_search goodAt bin_width step limit fuel low high =
        some (l, round_to_bin_multiple limit bin_width, false) := by
  intro fuel
  induction fuel with
  | zero => intro h; exact absurd h (by omega)
  | succ fuel ih =>
    intro _ low high hfuel
    simp only [coarse_search, hall high, Bool.false_eq_true, if_false]
    by_cases hlim2 : limit ≤ high
    · rw [if_pos hlim2]
      exact ⟨low, rfl⟩
    · rw [if_neg hlim2]
      have hhigh : high < limit := by omega
      have hsat : satAdd high step = high + step := by
        simp only [satAdd, U32MAX]
        omega
      rw [hsat]
      have hb1 : high + step + bin_width - 1 < 2 ^ 32 := by omega
      have hge := round_ge (high + step) bin_width hbw hb1
      have hsatb : satAdd high bin_width = high + bin_width := by
        simp only [satAdd, U32MAX]
        omega
      by_cases hnext : round_to_bin_multiple (high + step) bin_width = high
      · rw [if_pos hnext, hsatb]
        exact ih (by omega) high (high + bin_width) (by omega)
      · rw [if_neg hnext]
        exact ih (by omega) high (round_to_bin_multiple (high + step) bin_width) (by omega)

/-- C4 counterexample.  Take `genome_size = 100`, `bin_width = 50`,
`step = 60` and the predicate true exactly above 100 (realized by the actual
predicate with `prop = 1.0` and an empty store: `required = genome/c` is 0
iff `c > 100`).  No candidate up to the ceiling 100 satisfies the predicate,
yet the coarse scan probes 150 before its ceiling check, accepts it, and the
search returns 150 instead of the rounded ceiling 100. -/
theorem c4_counterexample :
    (∀ c ≤ 100, (fun c => decide (100 < c)) c = false) ∧
    round_to_bin_multiple (min 10000000 (min 100 U32MAX)) 50 = 100 ∧
    find_resolution (fun c => decide (100 < c)) 100 50 60 = some 150 ∧
    some 150 ≠ some (round_to_bin_multiple (min 10000000 (min 100 U32MAX)) 50) := by decide

/-- C4 (amended): if the predicate holds at no candidate at all — including
the probes the coarse scan tests beyond the ceiling, since each probe is
evaluated before the ceiling check — then `find_resolution` still returns a
value rather than failing: the ceiling `min(10_000_000, genome_size)` rounded
up to a bin-width multiple. -/
theorem c4_fallback_returns_rounded_ceiling (goodAt : Nat → Bool)
    (genome_size bin_width step : Nat) (hbw : 0 < bin_width)
    (hov : step + bin_width + 10000000 ≤ 2 ^ 32)
    (hall : ∀ c, goodAt c = false) :
    find_resolution goodAt genome_size bin_width step =
      some (round_to_bin_multiple (min 10000000 (min genome_size U32MAX)) bin_width) := by
  simp only [find_resolution]
  obtain ⟨l, hl⟩ := coarse_search_all_bad goodAt bin_width step
    (min 10000000 (min genome_size U32MAX)) hall hbw (Nat.min_le_left _ _) hov
    (min 10000000 (min genome_size U32MAX) + 2) (by omega) bin_width bin_width (by omega)
  rw [hl]
  simp

/-- C4 witness: with a predicate that is false everywhere, genome 100, bin
width 50 and step 60, the search returns the rounded ceiling. -/
theorem c4_witness :
    find_resolution (fun _ => false) 100 50 60 =
      some (round_to_bin_multiple (min 10000000 (min 100 U32MAX)) 50) :=
  c4_fallback_returns_rounded_ceiling (fun _ => false) 100 50 60 (by decide) (by decide)
    (fun _ => rfl)

/-- C6: in the binary refinement loop, whenever `low` and `high` are positive
multiples of the bin width with `high > low + bin_width` (and the values are
within `u32` range so the rounding does not wrap), the midpoint
`round_to_bin_multiple(low + (high - low) / 2)` lies strictly between `low`
and `high`, so each iteration strictly shrinks the interval; and once the
iteration budget is exhausted the loop stops, returning the current `high`. -/
theorem c6_binary_midpoint_and_cap (goodAt : Nat → Bool) (bin_width low high : Nat)
    (hbw : 0 < bin_width) (hlow : bin_width ∣ low) (hhigh : bin_width ∣ high)
    (hlt : low + bin_width < high) (hbound : high + bin_width ≤ 2 ^ 32) :
    (low < round_to_bin_multiple (low + (high - low) / 2) bin_width ∧
      round_to_bin_multiple (low + (high - low) / 2) bin_width < high ∧
      high - round_to_bin_multiple (low + (high - low) / 2) bin_width < high - low ∧
      round_to_bin_multiple (low + (high - low) / 2) bin_width - low < high - low) ∧
    (∀ l h, binary_refine goodAt bin_width 0 l h = h) := by
  have hd : bin_width ∣ (high - low) := Nat.dvd_sub' hhigh hlow
  obtain ⟨m, hm⟩ := hd
  have hmge : 2 ≤ m := by
    rcases Nat.lt_or_ge m 2 with h2 | h2
    · exfalso
      have : bin_width * m ≤ bin_width * 1 := Nat.mul_le_mul_left _ (by omega)
      omega
    · exact h2
  have h2b : bin_width * 2 ≤ bin_width * m := Nat.mul_le_mul_left _ hmge
  have hdge : 2 * bin_width ≤ high - low := by omega
  have hb1 : low + (high - low) / 2 + bin_width - 1 < 2 ^ 32 := by omega
  have hge := round_ge (low + (high - low) / 2) bin_width hbw hb1
  have hlt2 := round_lt (low + (high - low) / 2) bin_width hbw hb1
  exact ⟨⟨by omega, by omega, by omega, by omega⟩, fun l h => rfl⟩

/-- C6 witness: bin width 50, interval `[50, 200]`; the midpoint rounds to
150, strictly inside, and the capped loop at budget 0 returns `high`. -/
theorem c6_witness :
    (50 < round_to_bin_multiple (50 + (200 - 50) / 2) 50 ∧
      round_to_bin_multiple (50 + (200 - 50) / 2) 50 < 200 ∧
      200 - round_to_bin_multiple (50 + (200 - 50) / 2) 50 < 200 - 50 ∧
      round_to_bin_multiple (50 + (200 - 50) / 2) 50 - 50 < 200 - 50) ∧
    binary_refine (fun _ => true) 50 0 77 123 = 123 :=
  ⟨(c6_binary_midpoint_and_cap (fun _ => true) 50 50 200 (by decide) (by decide)
      (by decide) (by decide) (by decide)).1,
   (c6_binary_midpoint_and_cap (fun _ => true) 50 50 200 (by decide) (by decide)
      (by decide) (by decide) (by decide)).2 77 123⟩

/-- Key packing of the worker closure in `aggregate_pairs_chunk`
(`cli.rs` line 299): `(ci << 32) | b`. -/
def pack (ci b : Nat) : Nat := (ci <<< 32) ||| b

theorem pack_eq (ci b : Nat) (hb : b < 2 ^ 32) : pack ci b = 2 ^ 32 * ci + b := by
  unfold pack
  rw [Nat.shiftLeft_eq, Nat.mul_comm]
  exact (Nat.mul_add_lt_is_or hb ci).symm

theorem pack_hi (ci b : Nat) (hb : b < 2 ^ 32) : pack ci b >>> 32 = ci := by
  rw [pack_eq ci b hb, Nat.shiftRight_eq_div_pow,
    Nat.mul_add_div (by norm_num) ci b, Nat.div_eq_of_lt hb]
  rfl

theorem pack_lo (ci b : Nat) (hb : b < 2 ^ 32) : pack ci b &&& (2 ^ 32 - 1) = b := by
  rw [pack_eq ci b hb, Nat.and_pow_two_sub_one_eq_mod, Nat.mul_add_mod,
    Nat.mod_eq_of_lt hb]

theorem pack_decomp (k : Nat) : pack (k >>> 32) (k &&& (2 ^ 32 - 1)) = k := by
  rw [Nat.and_pow_two_sub_one_eq_mod,
    pack_eq _ _ (Nat.mod_lt _ (by norm_num)), Nat.shiftRight_eq_div_pow]
  exact Nat.div_add_mod k (2 ^ 32)

/-- Per-endpoint validation and key emission of the worker closure
(`cli.rs` lines 302-321): a surviving endpoint contributes one
`(pack(ci, pos / binw), 1)` entry, a dropped endpoint contributes nothing. -/
def endpointEntries (chr_lens : List Nat) (binw chr pos : Nat) : List (Nat × Nat) :=
  if chr - 1 < chr_lens.length ∧ pos < chr_lens.getD (chr - 1) 0 then
    [(pack (chr - 1) (pos / binw), 1)]
  else []

/-- Both endpoints of one record, first end then second end. -/
def pairEntries (chr_lens : List Nat) (binw : Nat) (p : Pair) : List (Nat × Nat) :=
  endpointEntries chr_lens binw p.chr1 p.pos1 ++ endpointEntries chr_lens binw p.chr2 p.pos2

/-- All entries a worker emits for its sub-chunk, in record order. -/
def chunkEntries (chr_lens : List Nat) (binw : Nat) (chunk : List Pair) : List (Nat × Nat) :=
  chunk.flatMap (pairEntries chr_lens binw)

/-- Sorting of the entry vector by packed key (`sort_unstable_by` on `.0`,
`cli.rs` line 323).  Modelled by insertion sort: every emitted count is 1, so
any algorithm sorting by the key produces the same list, and the proofs below
use only the permutation property. -/
def sortEntries (es : List (Nat × Nat)) : List (Nat × Nat) :=
  List.insertionSort (fun a b => a.1 ≤ b.1) es

/-- Run-length compression of the entry vector (`cli.rs` lines 324-331):
adjacent equal keys merge their counts with `saturating_add`. -/
def compressGo : Nat → Nat → List (Nat × Nat) → List (Nat × Nat)
  | k, v, [] => [(k, v)]
  | k, v, (kk, vv) :: rest =>
    if kk = k then compressGo k (satAdd v vv) rest
    else (k, v) :: compressGo kk vv rest

/-- Entry point of the compression: empty input gives an empty output. -/
def compress : List (Nat × Nat) → List (Nat × Nat)
  | [] => []
  | (k, v) :: rest => compressGo k v rest

/-- Merge of one compressed `(key, count)` entry into the dense bins
(`cli.rs` lines 337-348): decode the key, bounds-check, saturating add. -/
def applyEntry (cov : Coverage) (e : Nat × Nat) : Coverage :=
  let ci := e.1 >>> 32
  let b := e.1 &&& (2 ^ 32 - 1)
  if ci < cov.bins.length then
    let row := cov.bins.getD ci []
    if b < row.length then
      { cov with bins := cov.bins.set ci (row.set b (satAdd (row.getD b 0) e.2)) }
    else cov
  else cov

/-- `aggregate_pairs_chunk` (`cli.rs` lines 288-349) with the `par_chunks`
split of the aggregation chunk given explicitly as its list of sub-chunks:
each worker packs, sorts and compresses its sub-chunk independently, then the
partial vectors are merged sequentially into the store. -/
def aggregate_pairs_chunk (subchunks : List (List Pair)) (cov : Coverage) : Coverage :=
  let partials := subchunks.map
    (fun sc => compress (sortEntries (chunkEntries cov.chr_lengths cov.bin_width sc)))
  partials.foldl (fun c part => part.foldl applyEntry c) cov

/-- `process_pairs` (`cli.rs` lines 250-286): the stream is buffered into
aggregation chunks, each flushed through `aggregate_pairs_chunk` in order
(the trailing partial buffer goes through the same path). -/
def process_pairs (chunks : List (List (List Pair))) (cov : Coverage) : Coverage :=
  chunks.foldl (fun c ch => aggregate_pairs_chunk ch c) cov

/-- Sequential reference semantics: apply `add_pair` record by record. -/
def run_add_pairs (pairs : List Pair) (cov : Coverage) : Coverage :=
  pairs.foldl Coverage.add_pair cov

/-- Indicator: does this endpoint survive validation and fall in bin
`(ci, b)`? -/
def endpointHits (chr_lens : List Nat) (binw ci b chr pos : Nat) : Nat :=
  if chr - 1 = ci ∧ ci < chr_lens.length ∧ pos < chr_lens.getD ci 0 ∧ pos / binw = b
  then 1 else 0

/-- Surviving endpoints of one record in bin `(ci, b)` (0, 1 or 2). -/
def pairHits (chr_lens : List Nat) (binw ci b : Nat) (p : Pair) : Nat :=
  endpointHits chr_lens binw ci b p.chr1 p.pos1 + endpointHits chr_lens binw ci b p.chr2 p.pos2

/-- Surviving endpoints of a record list in bin `(ci, b)`. -/
def countSurv (chr_lens : List Nat) (binw : Nat) (pairs : List Pair) (ci b : Nat) : Nat :=
  (pairs.map (pairHits chr_lens binw ci b)).sum

/-- Total count carried by the entries with key `q`. -/
def keySum (es : List (Nat × Nat)) (q : Nat) : Nat :=
  (es.map (fun e => if e.1 = q then e.2 else 0)).sum

/-- Fields other than `bins` are untouched by the merge step. -/
theorem applyEntry_bin_width (cov : Coverage) (e : Nat × Nat) :
    (applyEntry cov e).bin_width = cov.bin_width := by
  simp only [applyEntry]
  repeat' split
  all_goals rfl

theorem applyEntry_chr_lengths (cov : Coverage) (e : Nat × Nat) :
    (applyEntry cov e).chr_lengths = cov.chr_lengths := by
  simp only [applyEntry]
  repeat' split
  all_goals rfl

theorem applyEntry_bins_length (cov : Coverage) (e : Nat × Nat) :
    (applyEntry cov e).bins.length = cov.bins.length := by
  simp only [applyEntry]
  repeat' split
  all_goals simp

theorem applyEntry_row_length (cov : Coverage) (e : Nat × Nat) (i : Nat) :
    ((applyEntry cov e).bins.getD i []).length = (cov.bins.getD i []).length := by
  simp only [applyEntry]
  split
  · split
    · rename_i h1 h2
      by_cases hij : e.1 >>> 32 = i
      · subst hij
        rw [getD_set_same' h1]
        simp
      · rw [getD_set_diff' hij]
    · rfl
  · rfl

/-- Effect of merging one entry on an individual in-range counter: the
decoded target gets a saturating add of the carried count, every other
counter is untouched. -/
theorem applyEntry_binVal (cov : Coverage) (e : Nat × Nat) (ci b : Nat)
    (hci : ci < cov.bins.length) (hb : b < (cov.bins.getD ci []).length)
    (hb32 : b < 2 ^ 32) :
    binVal (applyEntry cov e) ci b =
      if e.1 = pack ci b then satAdd (binVal cov ci b) e.2 else binVal cov ci b := by
  simp only [applyEntry]
  by_cases hk : e.1 = pack ci b
  · rw [if_pos hk, hk, pack_hi ci b hb32, pack_lo ci b hb32, if_pos hci, if_pos hb]
    unfold binVal
    rw [getD_set_same' hci, getD_set_same hb]
  · rw [if_neg hk]
    by_cases hci' : e.1 >>> 32 < cov.bins.length
    · rw [if_pos hci']
      by_cases hb' : e.1 &&& (2 ^ 32 - 1) < (cov.bins.getD (e.1 >>> 32) []).length
      · rw [if_pos hb']
        unfold binVal
        by_cases hc : e.1 >>> 32 = ci
        · rw [hc, getD_set_same' hci]
          have hbne : e.1 &&& (2 ^ 32 - 1) ≠ b := by
            intro hbe
            exact hk (by rw [← pack_decomp e.1, hc, hbe])
          rw [getD_set_diff hbne]
        · rw [getD_set_diff' hc]
      · rw [if_neg hb']
    · rw [if_neg hci']

theorem foldl_applyEntry_bins_length (es : List (Nat × Nat)) (cov : Coverage) :
    (es.foldl applyEntry cov).bins.length = cov.bins.length := by
  induction es generalizing cov with
  | nil => rfl
  | cons e es ih => rw [List.foldl_cons, ih, applyEntry_bins_length]

theorem foldl_applyEntry_row_length (es : List (Nat × Nat)) (cov : Coverage) (i : Nat) :
    ((es.foldl applyEntry cov).bins.getD i []).length = (cov.bins.getD i []).length := by
  induction es generalizing cov with
  | nil => rfl
  | cons e es ih => rw [List.foldl_cons, ih, applyEntry_row_length]

theorem foldl_applyEntry_bin_width (es : List (Nat × Nat)) (cov : Coverage) :
    (es.foldl applyEntry cov).bin_width = cov.bin_width := by
  induction es generalizing cov with
  | nil => rfl
  | cons e es ih => rw [List.foldl_cons, ih, applyEntry_bin_width]

theorem foldl_applyEntry_chr_lengths (es : List (Nat × Nat)) (cov : Coverage) :
    (es.foldl applyEntry cov).chr_lengths = cov.chr_lengths := by
  induction es generalizing cov with
  | nil => rfl
  | cons e es ih => rw [List.foldl_cons, ih, applyEntry_chr_lengths]

/-- Merging a whole entry list moves an in-range counter to the saturated sum
of its previous value and the total count keyed at it. -/
theorem foldl_applyEntry_binVal (es : List (Nat × Nat)) (cov : Coverage) (ci b : Nat)
    (hci : ci < cov.bins.length) (hb : b < (cov.bins.getD ci []).length)
    (hb32 : b < 2 ^ 32) (hle : binVal cov ci b ≤ U32MAX) :
    binVal (es.foldl applyEntry cov) ci b =
      min (binVal cov ci b + keySum es (pack ci b)) U32MAX := by
  induction es generalizing cov with
  | nil =>
    unfold keySum
    simp only [List.foldl_nil, List.map_nil, List.sum_nil]
    omega
  | cons e es ih =>
    have hle' : binVal (applyEntry cov e) ci b ≤ U32MAX := by
      rw [applyEntry_binVal cov e ci b hci hb hb32]
      split
      · exact satAdd_le_max _ _
      · exact hle
    rw [List.foldl_cons,
      ih (applyEntry cov e) (by rw [applyEntry_bins_length]; exact hci)
        (by rw [applyEntry_row_length]; exact hb) hle',
      applyEntry_binVal cov e ci b hci hb hb32]
    unfold keySum
    simp only [List.map_cons, List.sum_cons]
    by_cases hk : e.1 = pack ci b
    · rw [if_pos hk, if_pos hk]
      simp only [satAdd, U32MAX] at *
      omega
    · rw [if_neg hk, if_neg hk]
      simp only [U32MAX] at *
      omega

/-- Compression does not change what a merge contributes to any counter:
under the saturating cap, the compressed counts keyed at `q` add up to the
same value as the raw ones. -/
theorem keySum_compressGo (rest : List (Nat × Nat)) (q : Nat) :
    ∀ k v I, min (I + keySum (compressGo k v rest) q) U32MAX =
      min (I + keySum ((k, v) :: rest) q) U32MAX := by
  induction rest with
  | nil => intro k v I; rfl
  | cons e rest ih =>
    intro k v I
    obtain ⟨kk, vv⟩ := e
    simp only [compressGo]
    by_cases hk : kk = k
    · rw [if_pos hk, ih]
      subst hk
      unfold keySum
      simp only [List.map_cons, List.sum_cons]
      by_cases hq : kk = q
      · rw [if_pos hq, if_pos hq, if_pos hq]
        simp only [satAdd, U32MAX] at *
        omega
      · rw [if_neg hq, if_neg hq, if_neg hq]
        simp
    · rw [if_neg hk]
      have hrec := ih kk vv (I + (if k = q then v else 0))
      unfold keySum at hrec ⊢
      simp only [List.map_cons, List.sum_cons] at hrec ⊢
      simp only [U32MAX] at *
      omega

theorem keySum_compress (es : List (Nat × Nat)) (q I : Nat) :
    min (I + keySum (compress es) q) U32MAX = min (I + keySum es q) U32MAX := by
  cases es with
  | nil => rfl
  | cons e rest =>
    obtain ⟨k, v⟩ := e
    exact keySum_compressGo rest q k v I

theorem keySum_perm {es es' : List (Nat × Nat)} (h : es.Perm es') (q : Nat) :
    keySum es q = keySum es' q :=
  (h.map _).sum_eq

theorem keySum_sortEntries (es : List (Nat × Nat)) (q : Nat) :
    keySum (sortEntries es) q = keySum es q :=
  keySum_perm (List.perm_insertionSort _ es) q

theorem keySum_append (es1 es2 : List (Nat × Nat)) (q : Nat) :
    keySum (es1 ++ es2) q = keySum es1 q + keySum es2 q := by
  unfold keySum
  rw [List.map_append, List.sum_append]

/-- The entries a single endpoint emits carry, at key `pack ci b`, exactly
its hit indicator for bin `(ci, b)`. -/
theorem keySum_endpointEntries (chr_lens : List Nat) (binw chr pos ci b : Nat)
    (_hbw : 0 < binw) (hlens : ∀ l ∈ chr_lens, l < 2 ^ 32) (hb32 : b < 2 ^ 32) :
    keySum (endpointEntries chr_lens binw chr pos) (pack ci b) =
      endpointHits chr_lens binw ci b chr pos := by
  unfold endpointEntries endpointHits
  by_cases hsurv : (chr - 1 < chr_lens.length ∧ pos < chr_lens.getD (chr - 1) 0)
  · rw [if_pos hsurv]
    have hpos32 : pos / binw < 2 ^ 32 := by
      have hl : chr_lens.getD (chr - 1) 0 < 2 ^ 32 :=
        hlens _ (getD_mem_nat hsurv.1)
      have hple : pos / binw ≤ pos := Nat.div_le_self _ _
      omega
    unfold keySum
    simp only [List.map_cons, List.map_nil, List.sum_cons, List.sum_nil]
    by_cases hit : (chr - 1 = ci ∧ ci < chr_lens.length ∧ pos < chr_lens.getD ci 0 ∧
        pos / binw = b)
    · rw [if_pos (by rw [hit.1, hit.2.2.2]), if_pos hit]
      omega
    · have hne : pack (chr - 1) (pos / binw) ≠ pack ci b := by
        intro hkey
        apply hit
        have h1 : chr - 1 = ci := by
          have hc := congrArg (fun k => k >>> 32) hkey
          simp only at hc
          rw [pack_hi _ _ hpos32, pack_hi _ _ hb32] at hc
          exact hc
        have h2 : pos / binw = b := by
          have hc := congrArg (fun k => k &&& (2 ^ 32 - 1)) hkey
          simp only at hc
          rw [pack_lo _ _ hpos32, pack_lo _ _ hb32] at hc
          exact hc
        refine ⟨h1, ?_, ?_, h2⟩
        · rw [← h1]; exact hsurv.1
        · rw [← h1]; exact hsurv.2
      rw [if_neg hne, if_neg hit]
      omega
  · rw [if_neg hsurv, if_neg ?_]
    · rfl
    · intro hit
      refine hsurv ⟨?_, ?_⟩
      · rw [hit.1]; exact hit.2.1
      · rw [hit.1]; exact hit.2.2.1

/-- The entries a worker emits for its sub-chunk carry, at key `pack ci b`,
exactly the number of surviving endpoints of the sub-chunk in bin
`(ci, b)`. -/
theorem keySum_chunkEntries (chr_lens : List Nat) (binw : Nat) (chunk : List Pair)
    (ci b : Nat) (hbw : 0 < binw) (hlens : ∀ l ∈ chr_lens, l < 2 ^ 32) (hb32 : b < 2 ^ 32) :
    keySum (chunkEntries chr_lens binw chunk) (pack ci b) =
      countSurv chr_lens binw chunk ci b := by
  induction chunk with
  | nil => rfl
  | cons p ps ih =>
    unfold chunkEntries countSurv at *
    simp only [List.flatMap_cons, List.map_cons, List.sum_cons]
    rw [keySum_append, ih]
    unfold pairEntries pairHits
    rw [keySum_append,
      keySum_endpointEntries chr_lens binw p.chr1 p.pos1 ci b hbw hlens hb32,
      keySum_endpointEntries chr_lens binw p.chr2 p.pos2 ci b hbw hlens hb32]

theorem countSurv_append (chr_lens : List Nat) (binw : Nat) (l1 l2 : List Pair) (ci b : Nat) :
    countSurv chr_lens binw (l1 ++ l2) ci b =
      countSurv chr_lens binw l1 ci b + countSurv chr_lens binw l2 ci b := by
  unfold countSurv
  rw [List.map_append, List.sum_append]

theorem countSurv_perm (chr_lens : List Nat) (binw : Nat) {l1 l2 : List Pair}
    (h : l1.Perm l2) (ci b : Nat) :
    countSurv chr_lens binw l1 ci b = countSurv chr_lens binw l2 ci b :=
  (h.map _).sum_eq

/-- Helper lemmas relating `add_pair` to the hit counters. -/
theorem add_pair_bin_width (cov : Coverage) (p : Pair) :
    (cov.add_pair p).bin_width = cov.bin_width := by
  unfold Coverage.add_pair
  rw [increment_bin_width, increment_bin_width]

theorem add_pair_chr_lengths (cov : Coverage) (p : Pair) :
    (cov.add_pair p).chr_lengths = cov.chr_lengths := by
  unfold Coverage.add_pair
  rw [increment_chr_lengths, increment_chr_lengths]

/-- One `increment` in hit-counter form. -/
theorem increment_binVal_min (cov : Coverage) (chr pos ci b : Nat) (hwf : cov.WF) :
    binVal (cov.increment chr pos) ci b =
      min (binVal cov ci b + endpointHits cov.chr_lengths cov.bin_width ci b chr pos)
        U32MAX := by
  have hlen := hwf.2.1
  have hle := binVal_le_max cov ci b hwf
  rw [increment_binVal cov chr pos ci b hwf]
  unfold endpointHits
  by_cases h : (chr - 1 = ci ∧ ci < cov.bins.length ∧ pos < cov.chr_lengths.getD ci 0 ∧
      pos / cov.bin_width = b)
  · rw [if_pos h, if_pos ⟨h.1, by rw [← hlen]; exact h.2.1, h.2.2.1, h.2.2.2⟩]
    simp only [satAdd, U32MAX]
  · rw [if_neg h, if_neg (fun hc => h ⟨hc.1, by rw [hlen]; exact hc.2.1, hc.2.2.1, hc.2.2.2⟩)]
    have hle2 : binVal cov ci b ≤ 2 ^ 32 - 1 := by simpa [U32MAX] using hle
    simp only [U32MAX]
    omega

/-- One `add_pair` in hit-counter form. -/
theorem add_pair_binVal (cov : Coverage) (p : Pair) (ci b : Nat) (hwf : cov.WF) :
    binVal (cov.add_pair p) ci b =
      min (binVal cov ci b + pairHits cov.chr_lengths cov.bin_width ci b p) U32MAX := by
  unfold Coverage.add_pair
  rw [increment_binVal_min _ p.chr2 p.pos2 ci b (increment_WF _ _ _ hwf),
    increment_chr_lengths, increment_bin_width,
    increment_binVal_min _ p.chr1 p.pos1 ci b hwf]
  unfold pairHits
  have hle := binVal_le_max cov ci b hwf
  simp only [U32MAX] at *
  omega

/-- Sequential ingestion in closed form: after `add_pair` on every record,
each counter holds the saturated count of its surviving endpoints on top of
its initial value. -/
theorem run_add_pairs_binVal (pairs : List Pair) (cov : Coverage) (ci b : Nat)
    (hwf : cov.WF) :
    binVal (run_add_pairs pairs cov) ci b =
      min (binVal cov ci b + countSurv cov.chr_lengths cov.bin_width pairs ci b) U32MAX := by
  induction pairs generalizing cov with
  | nil =>
    have hle := binVal_le_max cov ci b hwf
    unfold run_add_pairs countSurv
    simp only [List.foldl_nil, List.map_nil, List.sum_nil]
    omega
  | cons p ps ih =>
    unfold run_add_pairs at *
    simp only [List.foldl_cons]
    rw [ih (cov.add_pair p) (add_pair_WF _ _ hwf), add_pair_chr_lengths, add_pair_bin_width,
      add_pair_binVal cov p ci b hwf]
    unfold countSurv
    simp only [List.map_cons, List.sum_cons]
    have hle := binVal_le_max cov ci b hwf
    simp only [U32MAX] at *
    omega

/-- Shape preservation through a whole sequence of sub-chunk merges. -/
theorem foldl_subchunks_bins_length (lens : List Nat) (binw : Nat)
    (subs : List (List Pair)) (cov : Coverage) :
    (subs.foldl (fun c sc =>
        (compress (sortEntries (chunkEntries lens binw sc))).foldl applyEntry c)
      cov).bins.length = cov.bins.length := by
  induction subs generalizing cov with
  | nil => rfl
  | cons sc subs ih => rw [List.foldl_cons, ih, foldl_applyEntry_bins_length]

theorem foldl_subchunks_row_length (lens : List Nat) (binw : Nat)
    (subs : List (List Pair)) (cov : Coverage) (i : Nat) :
    ((subs.foldl (fun c sc =>
        (compress (sortEntries (chunkEntries lens binw sc))).foldl applyEntry c)
      cov).bins.getD i []).length = (cov.bins.getD i []).length := by
  induction subs generalizing cov with
  | nil => rfl
  | cons sc subs ih => rw [List.foldl_cons, ih, foldl_applyEntry_row_length]

theorem foldl_subchunks_bin_width (lens : List Nat) (binw : Nat)
    (subs : List (List Pair)) (cov : Coverage) :
    (subs.foldl (fun c sc =>
        (compress (sortEntries (chunkEntries lens binw sc))).foldl applyEntry c)
      cov).bin_width = cov.bin_width := by
  induction subs generalizing cov with
  | nil => rfl
  | cons sc subs ih => rw [List.foldl_cons, ih, foldl_applyEntry_bin_width]

theorem foldl_subchunks_chr_lengths (lens : List Nat) (binw : Nat)
    (subs : List (List Pair)) (cov : Coverage) :
    (subs.foldl (fun c sc =>
        (compress (sortEntries (chunkEntries lens binw sc))).foldl applyEntry c)
      cov).chr_lengths = cov.chr_lengths := by
  induction subs generalizing cov with
  | nil => rfl
  | cons sc subs ih => rw [List.foldl_cons, ih, foldl_applyEntry_chr_lengths]

/-- One aggregation chunk in closed form: merging every sub-chunk's
pack-sort-compress partial moves each in-range counter to the saturated sum
of its initial value and the chunk's surviving endpoints in that bin. -/
theorem foldl_subchunks_binVal (lens : List Nat) (binw : Nat) (subs : List (List Pair))
    (cov : Coverage) (ci b : Nat)
    (hbw : 0 < binw) (hlens : ∀ l ∈ lens, l < 2 ^ 32) (hb32 : b < 2 ^ 32)
    (hci : ci < cov.bins.length) (hb : b < (cov.bins.getD ci []).length)
    (hle : binVal cov ci b ≤ U32MAX) :
    binVal (subs.foldl (fun c sc =>
        (compress (sortEntries (chunkEntries lens binw sc))).foldl applyEntry c) cov) ci b =
      min (binVal cov ci b + countSurv lens binw subs.flatten ci b) U32MAX := by
  induction subs generalizing cov with
  | nil =>
    simp only [List.foldl_nil, List.flatten_nil]
    unfold countSurv
    simp only [List.map_nil, List.sum_nil]
    have hle2 : binVal cov ci b ≤ 2 ^ 32 - 1 := by simpa [U32MAX] using hle
    simp only [U32MAX]
    omega
  | cons sc subs ih =>
    simp only [List.foldl_cons]
    have h1 : binVal ((compress (sortEntries (chunkEntries lens binw sc))).foldl
        applyEntry cov) ci b =
        min (binVal cov ci b + countSurv lens binw sc ci b) U32MAX := by
      rw [foldl_applyEntry_binVal _ cov ci b hci hb hb32 hle, keySum_compress,
        keySum_sortEntries, keySum_chunkEntries lens binw sc ci b hbw hlens hb32]
    rw [ih ((compress (sortEntries (chunkEntries lens binw sc))).foldl applyEntry cov)
        (by rw [foldl_applyEntry_bins_length]; exact hci)
        (by rw [foldl_applyEntry_row_length]; exact hb)
        (by rw [h1]; exact Nat.min_le_right _ _),
      h1, List.flatten_cons, countSurv_append]
    have hle2 : binVal cov ci b ≤ 2 ^ 32 - 1 := by simpa [U32MAX] using hle
    simp only [U32MAX]
    omega

/-- `aggregate_pairs_chunk` is the sub-chunk fold with the store's own
layout. -/
theorem aggregate_pairs_chunk_eq_foldl (subs : List (List Pair)) (cov : Coverage) :
    aggregate_pairs_chunk subs cov =
      subs.foldl (fun c sc =>
        (compress (sortEntries (chunkEntries cov.chr_lengths cov.bin_width sc))).foldl
          applyEntry c) cov := by
  unfold aggregate_pairs_chunk
  rw [List.foldl_map]

theorem aggregate_bins_length (subs : List (List Pair)) (cov : Coverage) :
    (aggregate_pairs_chunk subs cov).bins.length = cov.bins.length := by
  rw [aggregate_pairs_chunk_eq_foldl]
  exact foldl_subchunks_bins_length _ _ _ _

theorem aggregate_row_length (subs : List (List Pair)) (cov : Coverage) (i : Nat) :
    ((aggregate_pairs_chunk subs cov).bins.getD i []).length =
      (cov.bins.getD i []).length := by
  rw [aggregate_pairs_chunk_eq_foldl]
  exact foldl_subchunks_row_length _ _ _ _ _

theorem aggregate_bin_width (subs : List (List Pair)) (cov : Coverage) :
    (aggregate_pairs_chunk subs cov).bin_width = cov.bin_width := by
  rw [aggregate_pairs_chunk_eq_foldl]
  exact foldl_subchunks_bin_width _ _ _ _

theorem aggregate_chr_lengths (subs : List (List Pair)) (cov : Coverage) :
    (aggregate_pairs_chunk subs cov).chr_lengths = cov.chr_lengths := by
  rw [aggregate_pairs_chunk_eq_foldl]
  exact foldl_subchunks_chr_lengths _ _ _ _

theorem aggregate_binVal (subs : List (List Pair)) (cov : Coverage) (ci b : Nat)
    (hbw : 0 < cov.bin_width) (hlens : ∀ l ∈ cov.chr_lengths, l < 2 ^ 32)
    (hb32 : b < 2 ^ 32) (hci : ci < cov.bins.length)
    (hb : b < (cov.bins.getD ci []).length) (hle : binVal cov ci b ≤ U32MAX) :
    binVal (aggregate_pairs_chunk subs cov) ci b =
      min (binVal cov ci b +
        countSurv cov.chr_lengths cov.bin_width subs.flatten ci b) U32MAX := by
  rw [aggregate_pairs_chunk_eq_foldl]
  exact foldl_subchunks_binVal _ _ subs cov ci b hbw hlens hb32 hci hb hle

/-- The whole chunked pipeline in closed form. -/
theorem process_pairs_binVal (chunks : List (List (List Pair))) (cov : Coverage) (ci b : Nat)
    (hbw : 0 < cov.bin_width) (hlens : ∀ l ∈ cov.chr_lengths, l < 2 ^ 32)
    (hb32 : b < 2 ^ 32) (hci : ci < cov.bins.length)
    (hb : b < (cov.bins.getD ci []).length) (hle : binVal cov ci b ≤ U32MAX) :
    binVal (process_pairs chunks cov) ci b =
      min (binVal cov ci b + countSurv cov.chr_lengths cov.bin_width
        (chunks.map List.flatten).flatten ci b) U32MAX := by
  induction chunks generalizing cov with
  | nil =>
    unfold process_pairs countSurv
    simp only [List.foldl_nil, List.map_nil, List.flatten_nil, List.sum_nil]
    have hle2 : binVal cov ci b ≤ 2 ^ 32 - 1 := by simpa [U32MAX] using hle
    simp only [U32MAX]
    omega
  | cons ch chunks ih =>
    unfold process_pairs at *
    simp only [List.foldl_cons, List.map_cons, List.flatten_cons]
    have hagg : binVal (aggregate_pairs_chunk ch cov) ci b =
        min (binVal cov ci b +
          countSurv cov.chr_lengths cov.bin_width ch.flatten ci b) U32MAX :=
      aggregate_binVal ch cov ci b hbw hlens hb32 hci hb hle
    rw [ih (aggregate_pairs_chunk ch cov)
        (by rw [aggregate_bin_width]; exact hbw)
        (by rw [aggregate_chr_lengths]; exact hlens)
        (by rw [aggregate_bins_length]; exact hci)
        (by rw [aggregate_row_length]; exact hb)
        (by rw [hagg]; exact Nat.min_le_right _ _),
      aggregate_chr_lengths, aggregate_bin_width, hagg, countSurv_append]
    have hle2 : binVal cov ci b ≤ 2 ^ 32 - 1 := by simpa [U32MAX] using hle
    simp only [U32MAX]
    omega

/-- Rows of a fresh store are zero-filled with the documented length. -/
theorem bins_from_lengths_getD (binw : Nat) (lens : List Nat) (ci : Nat)
    (hci : ci < lens.length) :
    (Coverage.from_lengths binw lens).bins.getD ci [] =
      List.replicate (lens.getD ci 0 / binw + 1) 0 := by
  unfold Coverage.from_lengths
  simp only [List.getD_eq_getElem?_getD, List.getElem?_map, List.getElem?_eq_getElem hci,
    Option.map_some', Option.getD_some]

/-- A fresh store is well-formed whenever the layout is `u32`-valid. -/
theorem from_lengths_WF (binw : Nat) (lens : List Nat) (hbw : 0 < binw)
    (hlens : ∀ l ∈ lens, l < 2 ^ 32) : (Coverage.from_lengths binw lens).WF := by
  refine ⟨hbw, by simp [Coverage.from_lengths], ?_, hlens, ?_⟩
  · intro i hi
    simp only [Coverage.from_lengths, List.length_map] at hi
    rw [bins_from_lengths_getD binw lens i hi]
    simp [Coverage.from_lengths]
  · intro r hr v hv
    simp only [Coverage.from_lengths, List.mem_map] at hr
    obtain ⟨len, -, rfl⟩ := hr
    have hv0 := List.eq_of_mem_replicate hv
    subst hv0
    exact Nat.zero_le _

/-- Every counter of a fresh store is zero. -/
theorem binVal_from_lengths (binw : Nat) (lens : List Nat) (ci b : Nat) :
    binVal (Coverage.from_lengths binw lens) ci b = 0 := by
  unfold binVal
  by_cases hci : ci < lens.length
  · rw [bins_from_lengths_getD binw lens ci hci]
    by_cases hb : b < lens.getD ci 0 / binw + 1
    · rw [List.getD_eq_getElem?_getD, List.getElem?_eq_getElem (by simpa using hb)]
      simp
    · rw [getD_eq_zero_of_le (by simpa using Nat.le_of_not_lt hb)]
  · rw [getD_eq_nil_of_le ?_]
    · rfl
    · show (Coverage.from_lengths binw lens).bins.length ≤ ci
      unfold Coverage.from_lengths
      simpa using Nat.le_of_not_lt hci

/-- C2 (amended): for every record list, every partition into aggregation
chunks and sub-chunks, and any reordering, the chunked parallel pipeline
(`process_pairs` / `aggregate_pairs_chunk`: per-sub-chunk pack-sort-compress,
then saturating merge) produces exactly the same final bin counts on a fresh
store as applying `add_pair` record by record; and each in-range counter ends
at `min(number of surviving endpoints in that bin, u32::MAX)` — the
saturating cap is the amendment forced by the counterexample. -/
theorem c2_chunked_matches_sequential (bin_width : Nat) (lens : List Nat)
    (pairs : List Pair) (chunks : List (List (List Pair))) (ci b : Nat)
    (hbw : 0 < bin_width) (hlens : ∀ l ∈ lens, l < 2 ^ 32)
    (hperm : ((chunks.map List.flatten).flatten).Perm pairs)
    (hci : ci < lens.length) (hb : b < lens.getD ci 0 / bin_width + 1) :
    binVal (process_pairs chunks (Coverage.from_lengths bin_width lens)) ci b =
      binVal (run_add_pairs pairs (Coverage.from_lengths bin_width lens)) ci b ∧
    binVal (process_pairs chunks (Coverage.from_lengths bin_width lens)) ci b =
      min (countSurv lens bin_width pairs ci b) U32MAX := by
  have hwf := from_lengths_WF bin_width lens hbw hlens
  have hb32 : b < 2 ^ 32 := by
    have h1 := hlens (lens.getD ci 0) (getD_mem_nat hci)
    have h2 : lens.getD ci 0 / bin_width ≤ lens.getD ci 0 := Nat.div_le_self _ _
    omega
  have hfci : ci < (Coverage.from_lengths bin_width lens).bins.length := by
    simpa [Coverage.from_lengths] using hci
  have hfb : b < ((Coverage.from_lengths bin_width lens).bins.getD ci []).length := by
    rw [bins_from_lengths_getD bin_width lens ci hci]
    simpa using hb
  have h0 : binVal (Coverage.from_lengths bin_width lens) ci b = 0 :=
    binVal_from_lengths bin_width lens ci b
  have hproc := process_pairs_binVal chunks (Coverage.from_lengths bin_width lens) ci b
    hbw hlens hb32 hfci hfb (by rw [h0]; exact Nat.zero_le _)
  have hseq := run_add_pairs_binVal pairs (Coverage.from_lengths bin_width lens) ci b hwf
  rw [h0, Nat.zero_add] at hproc hseq
  have hc : (Coverage.from_lengths bin_width lens).chr_lengths = lens := rfl
  have hw : (Coverage.from_lengths bin_width lens).bin_width = bin_width := rfl
  rw [hc, hw] at hproc hseq
  rw [countSurv_perm lens bin_width hperm ci b] at hproc
  exact ⟨by rw [hproc, hseq], hproc⟩

theorem countSurv_replicate (lens : List Nat) (binw n : Nat) (p : Pair) (ci b : Nat) :
    countSurv lens binw (List.replicate n p) ci b = n * pairHits lens binw ci b p := by
  unfold countSurv
  rw [List.map_replicate, List.sum_const_nat]

/-- C2 counterexample: `2^31` copies of the record `(1, 0, 1, 0)` (both
endpoints in bin `(1, 0)` of a one-chromosome layout) yield `2^32` surviving
endpoints, but the final counter of the chunked pipeline on a fresh store is
the saturated `u32::MAX = 2^32 - 1`, not the claimed endpoint count. -/
theorem c2_counterexample :
    countSurv [10] 10 (List.replicate (2 ^ 31) (Pair.mk 1 0 1 0)) 0 0 = 2 ^ 32 ∧
    binVal (process_pairs [[List.replicate (2 ^ 31) (Pair.mk 1 0 1 0)]]
        (Coverage.from_lengths 10 [10])) 0 0 = 2 ^ 32 - 1 ∧
    (2 ^ 32 - 1 : Nat) ≠ 2 ^ 32 := by
  have hph : pairHits [10] 10 0 0 (Pair.mk 1 0 1 0) = 2 := by decide
  have hcs : countSurv [10] 10 (List.replicate (2 ^ 31) (Pair.mk 1 0 1 0)) 0 0 = 2 ^ 32 := by
    rw [countSurv_replicate, hph]
    norm_num
  refine ⟨hcs, ?_, by norm_num⟩
  have hflat : ∀ l : List Pair,
      countSurv [10] 10 (([[l]].map List.flatten).flatten) 0 0 =
        countSurv [10] 10 l 0 0 := by
    intro l
    show countSurv [10] 10 ((l ++ []) ++ []) 0 0 = countSurv [10] 10 l 0 0
    rw [countSurv_append, countSurv_append]
    have h0nil : countSurv [10] 10 ([] : List Pair) 0 0 = 0 := rfl
    omega
  have hproc := process_pairs_binVal [[List.replicate (2 ^ 31) (Pair.mk 1 0 1 0)]]
    (Coverage.from_lengths 10 [10]) 0 0 (by decide) (by decide) (by norm_num)
    (by decide) (by decide) (by decide)
  rw [hproc]
  have hc : (Coverage.from_lengths 10 [10]).chr_lengths = [10] := rfl
  have hw : (Coverage.from_lengths 10 [10]).bin_width = 10 := rfl
  rw [hc, hw, hflat, hcs, binVal_from_lengths]
  simp [U32MAX]

/-- C2 witness partition: the two records of `pairsC2`, reordered, split into
two aggregation chunks of one sub-chunk each. -/
def chunksC2 : List (List (List Pair)) :=
  [[[Pair.mk 1 15 3 5]], [[Pair.mk 1 10 1 60]]]

/-- C2 witness record list (second endpoint of the second record names an
unconfigured chromosome 3 and is dropped). -/
def pairsC2 : List Pair := [Pair.mk 1 10 1 60, Pair.mk 1 15 3 5]

theorem c2_witness :
    binVal (process_pairs chunksC2 (Coverage.from_lengths 50 [100])) 0 0 =
      binVal (run_add_pairs pairsC2 (Coverage.from_lengths 50 [100])) 0 0 ∧
    binVal (process_pairs chunksC2 (Coverage.from_lengths 50 [100])) 0 0 =
      min (countSurv [100] 50 pairsC2 0 0) U32MAX :=
  c2_chunked_matches_sequential 50 [100] pairsC2 chunksC2 0 0 (by decide) (by decide)
    (by decide) (by decide) (by decide)
